import Mathlib

/-!
Shallow embedding of the `globals_macro` crate (src/lib.rs).

The crate declares process-wide globals of two kinds:

* `GlobalVar<T>`  = `Lazy<RwLock<T>>` — lazily initialized, guarded by a
  reader-writer lock, with operations `get`, `get_with`, `set`, `update`
  (trait `GlobalVarExt`);
* `GlobalConst<T>` = `Lazy<T>` — lazily initialized, immutable, with
  operations `get`, `get_with` (trait `GlobalConstExt`).

We model a cell as an initializer result together with the `Lazy` state
(`none` = uninitialized, `some v` = initialized holding `v`).  The field
`initCount` instruments the number of times the initializer closure has
been invoked by the `Lazy`, so that the exactly-once initialization
policy can be stated.  `Clone` on pure values is the identity, so `get`
returns the realized value itself.  Operations are state-passing: each
returns the cell after the call (and the call result where there is one).
The lock itself is modelled separately, as a micro-step transition
system, further below.
-/

set_option autoImplicit false

universe u v

/-- Model of `GlobalVar<T>` = `Lazy<RwLock<T>>` (src/lib.rs line 8):
`init` is the result of the initializer closure stored in the `Lazy`,
`val` is the `Lazy` state (`none` = not yet initialized), `initCount`
counts initializer invocations. -/
structure GlobalVar (T : Type u) where
  init : T
  val : Option T
  initCount : Nat

/-- Model of `GlobalConst<T>` = `Lazy<T>` (src/lib.rs line 9), with the
same fields as `GlobalVar`. -/
structure GlobalConst (T : Type u) where
  init : T
  val : Option T
  initCount : Nat

namespace GlobalVar

variable {T : Type u} {R : Type v}

/-- Dereferencing the `Lazy`: if the cell is uninitialized, run the
initializer closure (incrementing the invocation count) and store its
result; otherwise leave the cell unchanged.  Every operation of
`GlobalVarExt` begins by dereferencing `self.0`. -/
def force (c : GlobalVar T) : GlobalVar T :=
  match c.val with
  | some _ => c
  | none => ⟨c.init, some c.init, c.initCount + 1⟩

/-- The value a dereference of the `Lazy` yields: the stored value when
initialized, the initializer result otherwise. -/
def realize (c : GlobalVar T) : T :=
  c.val.getD c.init

/-- `fn get(&self) -> T where T: Clone { self.0.read().clone() }`
(src/lib.rs lines 59-61): dereference the `Lazy`, acquire read access,
clone the value.  Returns the clone and the cell afterwards. -/
def get (c : GlobalVar T) : T × GlobalVar T :=
  let c' := c.force
  (c'.realize, c')

/-- `fn get_with<F, R>(&self, f: F) -> R { f(&self.0.read()) }`
(src/lib.rs lines 63-65): dereference, acquire read access, apply `f`
to a shared reference to the value. -/
def get_with (c : GlobalVar T) (f : T → R) : R × GlobalVar T :=
  let c' := c.force
  (f c'.realize, c')

/-- `fn set(&self, value: T) { *self.0.write() = value; }`
(src/lib.rs lines 67-69): dereference, acquire write access, replace
the stored value. -/
def set (c : GlobalVar T) (value : T) : GlobalVar T :=
  let c' := c.force
  ⟨c'.init, some value, c'.initCount⟩

/-- `fn update<F>(&self, f: F) where F: FnOnce(&mut T) { f(&mut *self.0.write()); }`
(src/lib.rs lines 71-73): dereference, acquire write access, let `f`
mutate the value in place; `f : T → T` maps the prior value to the value
it leaves in the mutable reference.  Returns only the cell (unit result). -/
def update (c : GlobalVar T) (f : T → T) : GlobalVar T :=
  let c' := c.force
  ⟨c'.init, some (f c'.realize), c'.initCount⟩

end GlobalVar

namespace GlobalConst

variable {T : Type u} {R : Type v}

/-- Dereferencing the `Lazy<T>` of a `GlobalConst`. -/
def force (c : GlobalConst T) : GlobalConst T :=
  match c.val with
  | some _ => c
  | none => ⟨c.init, some c.init, c.initCount + 1⟩

/-- The value a dereference of the `Lazy` yields. -/
def realize (c : GlobalConst T) : T :=
  c.val.getD c.init

/-- `fn get(&self) -> T where T: Clone { self.0.deref().clone() }`
(src/lib.rs lines 77-79). -/
def get (c : GlobalConst T) : T × GlobalConst T :=
  let c' := c.force
  (c'.realize, c')

/-- `fn get_with<F, R>(&self, f: F) -> R { f(self.0.deref()) }`
(src/lib.rs lines 81-83). -/
def get_with (c : GlobalConst T) (f : T → R) : R × GlobalConst T :=
  let c' := c.force
  (f c'.realize, c')

end GlobalConst

/-- The `@init_expr` rule shared by both macros (src/lib.rs lines 25-26
and 42-43): with a supplied expression the initializer evaluates that
expression; without one it evaluates `<$ty>::default()`, modelled by
`Inhabited.default`. -/
def init_expr (T : Type u) [Inhabited T] : Option T → T
  | some e => e
  | none => (default : T)

/-- A `globals!` declaration `name: ty = expr` (or `name: ty`):
a fresh `GlobalVar` whose `Lazy` is uninitialized and whose initializer
closure is `|| RwLock::new(init_expr)` (src/lib.rs lines 18-22). -/
def mkGlobalVar {T : Type u} [Inhabited T] (e : Option T) : GlobalVar T :=
  ⟨init_expr T e, none, 0⟩

/-- A `const_globals!` declaration: a fresh `GlobalConst` whose `Lazy`
is uninitialized, initializer `|| init_expr` (src/lib.rs lines 36-39). -/
def mkGlobalConst {T : Type u} [Inhabited T] (e : Option T) : GlobalConst T :=
  ⟨init_expr T e, none, 0⟩

/-- One call of the `GlobalVarExt` interface, as it affects the cell
state.  `get_with` carries its callback; the callback's result type is
irrelevant to the cell state so `T → T` suffices here. -/
inductive VarOp (T : Type u) where
  | get
  | get_with (f : T → T)
  | set (value : T)
  | update (f : T → T)

/-- One call of the `GlobalConstExt` interface. -/
inductive ConstOp (T : Type u) where
  | get
  | get_with (f : T → T)

/-- Effect of one `GlobalVarExt` call on the cell state. -/
def applyVarOp {T : Type u} (c : GlobalVar T) : VarOp T → GlobalVar T
  | .get => (c.get).2
  | .get_with f => (c.get_with f).2
  | .set v => c.set v
  | .update f => c.update f

/-- Effect of one `GlobalConstExt` call on the cell state. -/
def applyConstOp {T : Type u} (c : GlobalConst T) : ConstOp T → GlobalConst T
  | .get => (c.get).2
  | .get_with f => (c.get_with f).2

/-- Run a serialized sequence of `GlobalVarExt` calls. -/
def runVarOps {T : Type u} (c : GlobalVar T) : List (VarOp T) → GlobalVar T
  | [] => c
  | op :: ops => runVarOps (applyVarOp c op) ops

/-- Run a serialized sequence of `GlobalConstExt` calls. -/
def runConstOps {T : Type u} (c : GlobalConst T) : List (ConstOp T) → GlobalConst T
  | [] => c
  | op :: ops => runConstOps (applyConstOp c op) ops

/-- The counter scenario of the spec: apply `update` with an
increment-by-one callback `N` times to a cell. -/
def incrN (c : GlobalVar Nat) : Nat → GlobalVar Nat
  | 0 => c
  | n + 1 => (incrN c n).update (fun k => k + 1)

/-- An environment of declared `globals!` cells: each macro expansion
produces one independent static per name, with no sharing between
distinct names. -/
def Env (T : Type u) : Type u :=
  Nat → GlobalVar T

/-- Perform one `GlobalVarExt` call on the cell named `n` of an
environment; every other cell's static is untouched. -/
def applyAt {T : Type u} (env : Env T) (n : Nat) (op : VarOp T) : Env T :=
  fun m => if m = n then applyVarOp (env n) op else env m

/-- A concrete two-cell environment of defaulted `Nat` globals, used to
instantiate the frame theorem. -/
def demoEnv : Env Nat :=
  fun _ => mkGlobalVar none

/-! ### The reader-writer lock, as a micro-step transition system

Each `GlobalVarExt` operation's body is: dereference the `Lazy`, acquire
the `parking_lot::RwLock` in the operation's mode (shared for `get` and
`get_with`, exclusive for `set` and `update`), touch the inner value,
release.  We model a pool of threads, each executing one operation's
micro-trace, under the `RwLock` acquisition rules: a shared acquire
blocks while a writer holds the lock, an exclusive acquire blocks while
anyone holds it.  Accesses themselves are never blocked by the
semantics — that the accessing thread in fact holds the lock in the
right mode is what we prove. -/

/-- Lock access mode: shared (`read`) or exclusive (`write`). -/
inductive Mode where
  | read
  | write
deriving DecidableEq

/-- One micro-step of an operation body: acquire the lock in mode `m`,
touch the inner value under mode `m`, or release. -/
inductive MicroStep where
  | acq (m : Mode)
  | access (m : Mode)
  | rel (m : Mode)
deriving DecidableEq

/-- The micro-trace of an operation acquiring the lock in mode `m`. -/
def opTrace (m : Mode) : List MicroStep :=
  [MicroStep.acq m, MicroStep.access m, MicroStep.rel m]

/-- The lock mode of each `GlobalVarExt` call: `get`/`get_with` call
`self.0.read()`, `set`/`update` call `self.0.write()`. -/
def varOpMode {T : Type u} : VarOp T → Mode
  | .get => Mode.read
  | .get_with _ => Mode.read
  | .set _ => Mode.write
  | .update _ => Mode.write

/-- A thread: the micro-steps it still has to execute, and the lock
access it currently holds (`none` = not holding). -/
structure Thread where
  prog : List MicroStep
  hold : Option Mode
deriving DecidableEq

/-- `RwLock` acquisition rules: a shared acquire is enabled while no
thread holds exclusive access; an exclusive acquire is enabled only
while no thread holds any access.  Touching the value and releasing are
not gated by the lock semantics. -/
def enabled {n : Nat} (ts : Fin n → Thread) : MicroStep → Prop
  | MicroStep.acq Mode.read => ∀ j, (ts j).hold ≠ some Mode.write
  | MicroStep.acq Mode.write => ∀ j, (ts j).hold = none
  | MicroStep.access _ => True
  | MicroStep.rel _ => True

/-- Effect of a micro-step on the executing thread's held access. -/
def stepHold (e : MicroStep) (h : Option Mode) : Option Mode :=
  match e with
  | MicroStep.acq m => some m
  | MicroStep.access _ => h
  | MicroStep.rel _ => none

/-- One interleaving step: some thread `i` executes its next enabled
micro-step. -/
inductive Step {n : Nat} : (Fin n → Thread) → (Fin n → Thread) → Prop where
  | mk (ts : Fin n → Thread) (i : Fin n) (e : MicroStep) (rest : List MicroStep)
      (hprog : (ts i).prog = e :: rest) (hen : enabled ts e) :
      Step ts (Function.update ts i (Thread.mk rest (stepHold e ((ts i).hold))))

/-- Zero or more interleaving steps. -/
inductive Reaches {n : Nat} : (Fin n → Thread) → (Fin n → Thread) → Prop where
  | refl (ts : Fin n → Thread) : Reaches ts ts
  | step {ts ts' ts'' : Fin n → Thread} :
      Step ts ts' → Reaches ts' ts'' → Reaches ts ts''

/-- A pool of `n` threads, thread `i` about to perform the
`GlobalVarExt` call `os i` on the same cell, none holding the lock. -/
def initPool {T : Type u} {n : Nat} (os : Fin n → VarOp T) : Fin n → Thread :=
  fun i => Thread.mk (opTrace (varOpMode (os i))) none

/-- Each thread is at one of the four points of its operation body,
holding the lock exactly between its acquire and its release. -/
def ThreadOk (t : Thread) : Prop :=
  (∃ m, t.prog = [MicroStep.acq m, MicroStep.access m, MicroStep.rel m] ∧ t.hold = none) ∨
  (∃ m, t.prog = [MicroStep.access m, MicroStep.rel m] ∧ t.hold = some m) ∨
  (∃ m, t.prog = [MicroStep.rel m] ∧ t.hold = some m) ∨
  (t.prog = [] ∧ t.hold = none)

/-- A thread holding exclusive access excludes every other thread from
holding any access. -/
def Excl {n : Nat} (ts : Fin n → Thread) : Prop :=
  ∀ i j, (ts i).hold = some Mode.write → j ≠ i → (ts j).hold = none

/-- The inductive invariant of the lock system. -/
def LockInv {n : Nat} (ts : Fin n → Thread) : Prop :=
  (∀ i, ThreadOk (ts i)) ∧ Excl ts

/-- The state in which the first `k` of `n` reader threads have all
acquired shared access and the rest have not started. -/
def readWave (n k : Nat) : Fin n → Thread :=
  fun i =>
    if i.val < k then
      Thread.mk [MicroStep.access Mode.read, MicroStep.rel Mode.read] (some Mode.read)
    else
      Thread.mk (opTrace Mode.read) none

/-- A one-thread pool about to perform `set 5` on a `Nat` cell. -/
def demoOs : Fin 1 → VarOp Nat :=
  fun _ => VarOp.set 5

/-- The pool `demoOs` after its thread acquired exclusive access. -/
def s1demo : Fin 1 → Thread :=
  Function.update (initPool demoOs) 0
    (Thread.mk [MicroStep.access Mode.write, MicroStep.rel Mode.write] (some Mode.write))

/-! ### Basic lemmas about forcing -/

namespace GlobalVar

variable {T : Type u} {R : Type v}

theorem realize_force (c : GlobalVar T) : (c.force).realize = c.realize := by
  cases h : c.val <;> simp [force, realize, h]

theorem val_force (c : GlobalVar T) : (c.force).val = some c.realize := by
  cases h : c.val <;> simp [force, realize, h]

theorem init_force (c : GlobalVar T) : (c.force).init = c.init := by
  cases h : c.val <;> simp [force, h]

theorem initCount_force_of_isSome (c : GlobalVar T) (h : c.val.isSome) :
    (c.force).initCount = c.initCount := by
  cases h2 : c.val
  · rw [h2] at h; simp at h
  · simp [force, h2]

theorem force_of_isSome (c : GlobalVar T) (h : c.val.isSome) : c.force = c := by
  cases h2 : c.val
  · rw [h2] at h; simp at h
  · simp [force, h2]

end GlobalVar

namespace GlobalConst

variable {T : Type u}

theorem const_realize_force (c : GlobalConst T) : (c.force).realize = c.realize := by
  cases h : c.val <;> simp [force, realize, h]

theorem const_val_force (c : GlobalConst T) : (c.force).val = some c.realize := by
  cases h : c.val <;> simp [force, realize, h]

theorem const_force_of_isSome (c : GlobalConst T) (h : c.val.isSome) : c.force = c := by
  cases h2 : c.val
  · rw [h2] at h; simp at h
  · simp [force, h2]

end GlobalConst

/-! ### Claim theorems -/

/-- C1: for every value `v`, `set(v)` followed by `get()` with no
intervening `set` or `update` returns a value equal to `v`: `set`
replaces the stored value with `v` and `get` clones exactly that
stored value. -/
theorem set_then_get_returns_value {T : Type u} (c : GlobalVar T) (v : T) :
    ((c.set v).get).1 = v := by
  simp [GlobalVar.set, GlobalVar.get, GlobalVar.force, GlobalVar.realize]

/-- C4: `get_with f` on a `GlobalVar` or a `GlobalConst` returns exactly
`f` applied to the current realized value of the cell, and leaves the
cell initialized (the cell afterwards is the forced cell, holding that
same realized value). -/
theorem get_with_applies_f {T : Type u} {R : Type v} (f : T → R)
    (c : GlobalVar T) (d : GlobalConst T) :
    (c.get_with f).1 = f c.realize ∧
    (c.get_with f).2 = c.force ∧
    ((c.get_with f).2).val = some c.realize ∧
    (d.get_with f).1 = f d.realize ∧
    (d.get_with f).2 = d.force ∧
    ((d.get_with f).2).val = some d.realize := by
  refine ⟨?_, rfl, c.val_force, ?_, rfl, d.const_val_force⟩
  · simp [GlobalVar.get_with, c.realize_force]
  · simp [GlobalConst.get_with, d.const_realize_force]

/-- C5: a global declared without an initializer expression realizes the
type default on first access; one declared with an expression realizes
that expression's result — for `globals!` and `const_globals!` alike. -/
theorem declared_initial_value (T : Type u) [Inhabited T] (e : T) :
    ((mkGlobalVar (none : Option T)).get).1 = (default : T) ∧
    ((mkGlobalVar (some e)).get).1 = e ∧
    ((mkGlobalConst (none : Option T)).get).1 = (default : T) ∧
    ((mkGlobalConst (some e)).get).1 = e := by
  refine ⟨?_, ?_, ?_, ?_⟩ <;>
    simp [mkGlobalVar, mkGlobalConst, init_expr, GlobalVar.get, GlobalConst.get,
      GlobalVar.force, GlobalConst.force, GlobalVar.realize, GlobalConst.realize]

/-- C9: for every prior stored value `x` of the cell, after `update f`
the stored value is exactly the value `f` leaves in the mutable
reference, namely `f x`; `update` yields no result besides the updated
cell. -/
theorem update_applies_in_place {T : Type u} (c : GlobalVar T) (f : T → T)
    (x : T) (h : c.realize = x) :
    (c.update f).val = some (f x) ∧ (c.update f).realize = f x := by
  subst h
  constructor
  · have h1 : (c.update f).val = some (f (c.force.realize)) := rfl
    rw [h1, c.realize_force]
  · have h2 : (c.update f).realize = f (c.force.realize) := rfl
    rw [h2, c.realize_force]

/-- C9 witness: a cell holding `3`, updated in place by doubling,
stores `6`. -/
theorem update_applies_in_place_witness :
    (GlobalVar.mk 3 (some 3) 1).realize = 3 ∧
    ((GlobalVar.mk 3 (some 3) 1).update (fun k => k * 2)).val = some 6 ∧
    ((GlobalVar.mk 3 (some 3) 1).update (fun k => k * 2)).realize = 6 :=
  ⟨by decide,
    (update_applies_in_place (GlobalVar.mk 3 (some 3) 1) (fun k => k * 2) 3 (by decide)).1,
    (update_applies_in_place (GlobalVar.mk 3 (some 3) 1) (fun k => k * 2) 3 (by decide)).2⟩

/-- C10: on any cell, `get()` returns the same value (and leaves the
same cell state) as `get_with` applied to the cloning function — for
pure values `clone` is the identity — so the two read operations agree,
on `GlobalVar` and `GlobalConst` alike. -/
theorem get_eq_get_with_clone {T : Type u} (c : GlobalVar T) (d : GlobalConst T) :
    c.get = c.get_with (fun v => id v) ∧ d.get = d.get_with (fun v => id v) := by
  constructor
  · simp [GlobalVar.get, GlobalVar.get_with]
  · simp [GlobalConst.get, GlobalConst.get_with]

/-! ### Lemmas about single calls and call sequences -/

namespace GlobalVar

variable {T : Type u} {R : Type v}

theorem get_fst (c : GlobalVar T) : (c.get).1 = c.realize :=
  c.realize_force

theorem get_snd (c : GlobalVar T) : (c.get).2 = c.force :=
  rfl

theorem get_with_fst (c : GlobalVar T) (f : T → R) : (c.get_with f).1 = f c.realize := by
  have h : (c.get_with f).1 = f (c.force.realize) := rfl
  rw [h, c.realize_force]

theorem realize_set (c : GlobalVar T) (v : T) : (c.set v).realize = v :=
  rfl

theorem realize_update (c : GlobalVar T) (f : T → T) :
    (c.update f).realize = f c.realize := by
  have h : (c.update f).realize = f (c.force.realize) := rfl
  rw [h, c.realize_force]

end GlobalVar

namespace GlobalConst

variable {T : Type u} {R : Type v}

theorem const_get_fst (c : GlobalConst T) : (c.get).1 = c.realize :=
  c.const_realize_force

theorem const_get_with_fst (c : GlobalConst T) (f : T → R) : (c.get_with f).1 = f c.realize := by
  have h : (c.get_with f).1 = f (c.force.realize) := rfl
  rw [h, c.const_realize_force]

end GlobalConst

theorem applyVarOp_val_isSome {T : Type u} (c : GlobalVar T) (op : VarOp T) :
    ((applyVarOp c op).val).isSome := by
  cases op <;>
    simp [applyVarOp, GlobalVar.get, GlobalVar.get_with, GlobalVar.set, GlobalVar.update,
      GlobalVar.val_force]

theorem applyVarOp_initCount {T : Type u} (c : GlobalVar T) (op : VarOp T) :
    (applyVarOp c op).initCount = (c.force).initCount := by
  cases op <;> rfl

theorem runVarOps_initCount_of_isSome {T : Type u} (c : GlobalVar T)
    (ops : List (VarOp T)) (h : (c.val).isSome) :
    (runVarOps c ops).initCount = c.initCount := by
  induction ops generalizing c with
  | nil => rfl
  | cons op ops ih =>
    rw [runVarOps, ih (applyVarOp c op) (applyVarOp_val_isSome c op),
      applyVarOp_initCount, GlobalVar.initCount_force_of_isSome c h]

theorem applyConstOp_eq_force {T : Type u} (c : GlobalConst T) (op : ConstOp T) :
    applyConstOp c op = c.force := by
  cases op <;> rfl

theorem runConstOps_of_isSome {T : Type u} (c : GlobalConst T)
    (ops : List (ConstOp T)) (h : (c.val).isSome) :
    runConstOps c ops = c := by
  induction ops generalizing c with
  | nil => rfl
  | cons op ops ih =>
    rw [runConstOps, applyConstOp_eq_force, GlobalConst.const_force_of_isSome c h, ih c h]

theorem runConstOps_realize {T : Type u} (c : GlobalConst T) (ops : List (ConstOp T)) :
    (runConstOps c ops).realize = c.realize := by
  induction ops generalizing c with
  | nil => rfl
  | cons op ops ih =>
    rw [runConstOps, applyConstOp_eq_force, ih c.force, GlobalConst.const_realize_force]

theorem applyConstOp_initCount_of_none {T : Type u} (c : GlobalConst T) (op : ConstOp T)
    (h : c.val = none) : (applyConstOp c op).initCount = c.initCount + 1 := by
  rw [applyConstOp_eq_force]
  simp [GlobalConst.force, h]

theorem applyConstOp_val_isSome {T : Type u} (c : GlobalConst T) (op : ConstOp T) :
    ((applyConstOp c op).val).isSome := by
  rw [applyConstOp_eq_force, GlobalConst.const_val_force]
  rfl

theorem runConstOps_initCount_of_isSome {T : Type u} (c : GlobalConst T)
    (ops : List (ConstOp T)) (h : (c.val).isSome) :
    (runConstOps c ops).initCount = c.initCount := by
  rw [runConstOps_of_isSome c ops h]

/-- C2: on any freshly declared global, the initializer runs exactly
once across any serialized sequence of accesses — zero times with no
access, once as soon as the first access happens, still once after
arbitrarily many further accesses — and for a constant cell every `get`
along the way observes the one value the initializer produced. -/
theorem initializer_runs_exactly_once (T : Type u) [Inhabited T] (e : Option T)
    (ops : List (VarOp T)) (cops : List (ConstOp T)) (op0 : VarOp T) (c0 : ConstOp T) :
    (runVarOps (mkGlobalVar e) ops).initCount = (if ops.isEmpty then 0 else 1) ∧
    (applyVarOp (mkGlobalVar e) op0).initCount = 1 ∧
    ((mkGlobalVar e).force).val = some (init_expr T e) ∧
    (runConstOps (mkGlobalConst e) cops).initCount = (if cops.isEmpty then 0 else 1) ∧
    (applyConstOp (mkGlobalConst e) c0).initCount = 1 ∧
    ((runConstOps (mkGlobalConst e) cops).get).1 = init_expr T e := by
  have hv1 : ∀ op : VarOp T, (applyVarOp (mkGlobalVar e) op).initCount = 1 := by
    intro op
    rw [applyVarOp_initCount]
    simp [mkGlobalVar, GlobalVar.force]
  have hc1 : ∀ op : ConstOp T, (applyConstOp (mkGlobalConst e) op).initCount = 1 := by
    intro op
    rw [applyConstOp_initCount_of_none (mkGlobalConst e) op rfl]
    rfl
  refine ⟨?_, hv1 op0, ?_, ?_, hc1 c0, ?_⟩
  · cases ops with
    | nil => rfl
    | cons op rest =>
      rw [runVarOps, runVarOps_initCount_of_isSome _ rest (applyVarOp_val_isSome _ op),
        hv1 op]
      rfl
  · simp [mkGlobalVar, GlobalVar.force]
  · cases cops with
    | nil => rfl
    | cons op rest =>
      rw [runConstOps, runConstOps_initCount_of_isSome _ rest (applyConstOp_val_isSome _ op),
        hc1 op]
      rfl
  · rw [GlobalConst.const_get_fst, runConstOps_realize]
    rfl

/-- C3: once a constant cell is initialized, its stored value never
changes under any further sequence of `get`/`get_with` calls, the
initializer is never invoked again, and both read operations observe
exactly the stored value. -/
theorem const_cell_immutable {T : Type u} {R : Type v} (c : GlobalConst T) (x : T)
    (ops : List (ConstOp T)) (f : T → R) (h : c.val = some x) :
    (runConstOps c ops).val = some x ∧
    (runConstOps c ops).initCount = c.initCount ∧
    ((runConstOps c ops).get).1 = x ∧
    ((runConstOps c ops).get_with f).1 = f x := by
  have hs : (c.val).isSome := by rw [h]; rfl
  have he : runConstOps c ops = c := runConstOps_of_isSome c ops hs
  have hr : c.realize = x := by simp [GlobalConst.realize, h]
  rw [he]
  exact ⟨h, rfl, by rw [GlobalConst.const_get_fst, hr], by rw [GlobalConst.const_get_with_fst, hr]⟩

/-- C3 witness: an initialized constant cell holding `5` is untouched by
a `get`, its initializer count stays `1`, and both reads observe `5`. -/
theorem const_cell_immutable_witness :
    (GlobalConst.mk 0 (some 5) 1).val = some 5 ∧
    ((runConstOps (GlobalConst.mk 0 (some 5) 1) [ConstOp.get]).val = some 5 ∧
      (runConstOps (GlobalConst.mk 0 (some 5) 1) [ConstOp.get]).initCount = 1 ∧
      ((runConstOps (GlobalConst.mk 0 (some 5) 1) [ConstOp.get]).get).1 = 5 ∧
      ((runConstOps (GlobalConst.mk 0 (some 5) 1) [ConstOp.get]).get_with
        (fun k => k + 1)).1 = 5 + 1) :=
  ⟨rfl, const_cell_immutable (GlobalConst.mk 0 (some 5) 1) 5 [ConstOp.get]
    (fun k => k + 1) rfl⟩

theorem realize_incrN (c : GlobalVar Nat) (n : Nat) :
    (incrN c n).realize = c.realize + n := by
  induction n with
  | zero => rfl
  | succ n ih => rw [incrN, GlobalVar.realize_update, ih, Nat.add_assoc]

/-- C6: applying `update` with an increment-by-one callback `N` times to
a counter cell and then calling `get` returns the initial value plus
`N`: no update is lost.  In particular a defaulted-to-`0` counter
reads `100` after `100` increments. -/
theorem counter_updates_accumulate (c : GlobalVar Nat) (N : Nat) :
    ((incrN c N).get).1 = c.realize + N ∧
    ((incrN (mkGlobalVar (none : Option Nat)) 100).get).1 = 100 := by
  constructor
  · rw [GlobalVar.get_fst, realize_incrN]
  · rw [GlobalVar.get_fst, realize_incrN]
    rfl

/-- C7: `get` and `get_with` leave the realized value of a `GlobalVar`
unchanged; the only mutations are through the write path, `set v`
making the value `v` and `update g` making it `g` of the prior value;
and an operation on one declared global leaves every other declared
global untouched. -/
theorem reads_leave_value_unchanged {T : Type u} {R : Type v} (f : T → R)
    (c : GlobalVar T) (v : T) (g : T → T) (env : Env T) (n m : Nat)
    (op : VarOp T) (h : m ≠ n) :
    ((c.get).2).realize = c.realize ∧
    ((c.get_with f).2).realize = c.realize ∧
    (c.set v).realize = v ∧
    (c.update g).realize = g c.realize ∧
    applyAt env n op m = env m :=
  ⟨c.realize_force, c.realize_force, c.realize_set v, c.realize_update g, by
    simp [applyAt, h]⟩

/-- C7 witness: on a cell holding `7`, reads preserve the realized
value, the write path is as characterized, and a `set` on global `0`
of a two-global environment leaves global `1` untouched. -/
theorem reads_leave_value_unchanged_witness :
    (1 : Nat) ≠ 0 ∧
    ((((GlobalVar.mk 2 (some 7) 1).get).2).realize = (GlobalVar.mk 2 (some 7) 1).realize ∧
      (((GlobalVar.mk 2 (some 7) 1).get_with (fun k => k * 3)).2).realize =
        (GlobalVar.mk 2 (some 7) 1).realize ∧
      ((GlobalVar.mk 2 (some 7) 1).set 9).realize = 9 ∧
      ((GlobalVar.mk 2 (some 7) 1).update (fun k => k + 1)).realize =
        (fun k => k + 1) (GlobalVar.mk 2 (some 7) 1).realize ∧
      applyAt demoEnv 0 (VarOp.set 5) 1 = demoEnv 1) :=
  ⟨by decide, reads_leave_value_unchanged (fun k => k * 3) (GlobalVar.mk 2 (some 7) 1) 9
    (fun k => k + 1) demoEnv 0 1 (VarOp.set 5) (by decide)⟩

/-! ### Lock-system lemmas -/

theorem lockInv_init {T : Type u} {n : Nat} (os : Fin n → VarOp T) :
    LockInv (initPool os) := by
  constructor
  · intro i
    exact Or.inl ⟨varOpMode (os i), rfl, rfl⟩
  · intro i j hw _
    exact absurd hw (by simp [initPool])

theorem lockInv_step {n : Nat} {ts ts' : Fin n → Thread}
    (hinv : LockInv ts) (hstep : Step ts ts') : LockInv ts' := by
  obtain ⟨hok, hexcl⟩ := hinv
  cases hstep with
  | mk i e rest hprog hen =>
    rcases hok i with ⟨m, hp, hh⟩ | ⟨m, hp, hh⟩ | ⟨m, hp, hh⟩ | ⟨hp, hh⟩
    · -- thread i is at its acquire
      have hcons := hp.symm.trans hprog
      injection hcons with he hrest
      subst he
      subst hrest
      constructor
      · intro j
        by_cases hji : j = i
        · subst hji
          rw [Function.update_same]
          exact Or.inr (Or.inl ⟨m, rfl, rfl⟩)
        · rw [Function.update_noteq hji]
          exact hok j
      · cases m with
        | read =>
          have hen' : ∀ j, (ts j).hold ≠ some Mode.write := hen
          intro a b hwa hba
          by_cases ha : a = i
          · subst ha
            rw [Function.update_same] at hwa
            exact absurd hwa (by simp [stepHold])
          · rw [Function.update_noteq ha] at hwa
            exact absurd hwa (hen' a)
        | write =>
          have hen' : ∀ j, (ts j).hold = none := hen
          intro a b hwa hba
          by_cases ha : a = i
          · by_cases hb : b = i
            · exact absurd (hb.trans ha.symm) hba
            · rw [Function.update_noteq hb]
              exact hen' b
          · rw [Function.update_noteq ha] at hwa
            rw [hen' a] at hwa
            exact Option.noConfusion hwa
    · -- thread i is at its value access, already holding in mode m
      have hcons := hp.symm.trans hprog
      injection hcons with he hrest
      subst he
      subst hrest
      have hpt : ∀ x, ((Function.update ts i
          (Thread.mk [MicroStep.rel m] (stepHold (MicroStep.access m) ((ts i).hold)))) x).hold =
          (ts x).hold := by
        intro x
        by_cases hx : x = i
        · subst hx
          rw [Function.update_same]
          rfl
        · rw [Function.update_noteq hx]
      constructor
      · intro j
        by_cases hji : j = i
        · subst hji
          rw [Function.update_same]
          exact Or.inr (Or.inr (Or.inl ⟨m, rfl, hh⟩))
        · rw [Function.update_noteq hji]
          exact hok j
      · intro a b hwa hba
        rw [hpt a] at hwa
        rw [hpt b]
        exact hexcl a b hwa hba
    · -- thread i is at its release
      have hcons := hp.symm.trans hprog
      injection hcons with he hrest
      subst he
      subst hrest
      constructor
      · intro j
        by_cases hji : j = i
        · subst hji
          rw [Function.update_same]
          exact Or.inr (Or.inr (Or.inr ⟨rfl, rfl⟩))
        · rw [Function.update_noteq hji]
          exact hok j
      · intro a b hwa hba
        by_cases ha : a = i
        · subst ha
          rw [Function.update_same] at hwa
          exact absurd hwa (by simp [stepHold])
        · rw [Function.update_noteq ha] at hwa
          by_cases hb : b = i
          · subst hb
            rw [Function.update_same]
            rfl
          · rw [Function.update_noteq hb]
            exact hexcl a b hwa hba
    · -- thread i has finished: nothing left to execute
      rw [hp] at hprog
      exact List.noConfusion hprog

theorem lockInv_reaches {n : Nat} {ts u : Fin n → Thread} (hr : Reaches ts u) :
    LockInv ts → LockInv u := by
  induction hr with
  | refl => exact id
  | step hs _ ih => exact fun hinv => ih (lockInv_step hinv hs)

theorem reaches_trans {n : Nat} {a b c : Fin n → Thread} (h1 : Reaches a b) :
    Reaches b c → Reaches a c := by
  induction h1 with
  | refl => exact id
  | step hs _ ih => exact fun h2 => Reaches.step hs (ih h2)

theorem readWave_zero (T : Type u) (n : Nat) :
    initPool (fun _ : Fin n => (VarOp.get : VarOp T)) = readWave n 0 := by
  funext i
  simp [initPool, readWave, opTrace, varOpMode]

theorem step_readWave (n k : Nat) (hk : k < n) :
    Step (readWave n k) (readWave n (k + 1)) := by
  have hprog : (readWave n k ⟨k, hk⟩).prog =
      MicroStep.acq Mode.read :: [MicroStep.access Mode.read, MicroStep.rel Mode.read] := by
    simp [readWave, opTrace]
  have hen : enabled (readWave n k) (MicroStep.acq Mode.read) := by
    show ∀ j, (readWave n k j).hold ≠ some Mode.write
    intro j
    by_cases hj : j.val < k <;> simp [readWave, hj]
  have h := Step.mk (readWave n k) ⟨k, hk⟩ (MicroStep.acq Mode.read)
    [MicroStep.access Mode.read, MicroStep.rel Mode.read] hprog hen
  have heq : Function.update (readWave n k) ⟨k, hk⟩
      (Thread.mk [MicroStep.access Mode.read, MicroStep.rel Mode.read]
        (stepHold (MicroStep.acq Mode.read) ((readWave n k ⟨k, hk⟩).hold))) =
      readWave n (k + 1) := by
    funext i
    by_cases hik : i = (⟨k, hk⟩ : Fin n)
    · subst hik
      rw [Function.update_same]
      simp [readWave, stepHold, Nat.lt_succ_self]
    · rw [Function.update_noteq hik]
      have hvk : i.val ≠ k := fun hc => hik (Fin.ext hc)
      rcases Nat.lt_or_ge i.val k with hlt | hge
      · simp [readWave, hlt, Nat.lt_succ_of_lt hlt]
      · have h1 : ¬ i.val < k := Nat.not_lt.mpr hge
        have h2 : ¬ i.val < k + 1 := by omega
        simp [readWave, h1, h2]
  rw [heq] at h
  exact h

theorem reaches_readWave (n k : Nat) (hk : k ≤ n) :
    Reaches (readWave n 0) (readWave n k) := by
  induction k with
  | zero => exact Reaches.refl _
  | succ k ih =>
    have hkn : k < n := hk
    exact reaches_trans (ih (Nat.le_of_lt hkn))
      (Reaches.step (step_readWave n k hkn) (Reaches.refl _))

theorem readWave_full (n : Nat) (i : Fin n) :
    (readWave n n i).hold = some Mode.read := by
  simp [readWave, i.isLt]

/-- C8: in every interleaving of `GlobalVarExt` calls on one cell, the
inner value is only touched by a thread that holds the cell's lock in
the right mode (shared for `get`/`get_with`, exclusive for
`set`/`update`); a thread holding exclusive access excludes every other
thread from holding any access; and any number of reader threads can
hold shared access simultaneously (`readWave n n`, where all `n`
readers hold the lock at once, is reachable). -/
theorem lock_discipline {T : Type u} (n : Nat) (os : Fin n → VarOp T)
    (u : Fin n → Thread) (i j : Fin n) (m : Mode) (rest : List MicroStep)
    (hr : Reaches (initPool os) u) :
    ((u i).prog = MicroStep.access m :: rest → (u i).hold = some m) ∧
    ((u i).hold = some Mode.write → j ≠ i → (u j).hold = none) ∧
    Reaches (initPool (fun _ : Fin n => (VarOp.get : VarOp T))) (readWave n n) ∧
    (readWave n n i).hold = some Mode.read := by
  have hinv : LockInv u := lockInv_reaches hr (lockInv_init os)
  refine ⟨?_, fun hw hji => hinv.2 i j hw hji, ?_, readWave_full n i⟩
  · intro hacc
    rcases hinv.1 i with ⟨m', hp, hh⟩ | ⟨m', hp, hh⟩ | ⟨m', hp, hh⟩ | ⟨hp, hh⟩
    · rw [hp] at hacc
      simp at hacc
    · rw [hp] at hacc
      injection hacc with ha hb
      injection ha with hm
      rw [hh, hm]
    · rw [hp] at hacc
      simp at hacc
    · rw [hp] at hacc
      exact List.noConfusion hacc
  · rw [readWave_zero T n]
    exact reaches_readWave n n (Nat.le_refl n)

theorem reaches_s1demo : Reaches (initPool demoOs) s1demo := by
  have h := Step.mk (initPool demoOs) 0 (MicroStep.acq Mode.write)
    [MicroStep.access Mode.write, MicroStep.rel Mode.write] rfl (fun j => rfl)
  exact Reaches.step h (Reaches.refl _)

/-- C8 witness: a single thread that performed the exclusive acquire of
its `set 5` call holds the lock in write mode at its access step, and
with two reader threads the all-readers state is reachable with both
threads holding shared access. -/
theorem lock_discipline_witness :
    (s1demo 0).hold = some Mode.write ∧
    Reaches (initPool (fun _ : Fin 2 => (VarOp.get : VarOp Nat))) (readWave 2 2) ∧
    (readWave 2 2 1).hold = some Mode.read :=
  ⟨(lock_discipline 1 demoOs s1demo 0 0 Mode.write [MicroStep.rel Mode.write]
      reaches_s1demo).1 (by decide),
    (lock_discipline 2 (fun _ => (VarOp.get : VarOp Nat))
      (initPool (fun _ => (VarOp.get : VarOp Nat))) 1 0 Mode.read []
      (Reaches.refl _)).2.2.1,
    (lock_discipline 2 (fun _ => (VarOp.get : VarOp Nat))
      (initPool (fun _ => (VarOp.get : VarOp Nat))) 1 0 Mode.read []
      (Reaches.refl _)).2.2.2⟩
